import Mathlib

/-!
Shallow embedding of the core of the libsdd library (Hierarchical Set Decision
Diagrams and homomorphisms) used to check the natural-language specification
against the code.

The embedding covers:
* the homomorphism algebra together with the Fixpoint and Sum smart
  constructors (src/sdd/hom/fixpoint.hh, src/sdd/hom/sum.hh);
* the variable order (src/sdd/order/order.hh);
* the LFU operation cache (src/sdd/mem/cache.hh);
* the fixpoint evaluation loop and the sum evaluation with its Top-wrapping
  error path.

Hash-consing makes structural equality coincide with handle identity, so
interned C++ handles are modelled by plain Lean terms and handle comparison by
structural equality.
-/

namespace sdd

/-!
## Homomorphism algebra

The homomorphism variants needed by the claims.  The variants themselves
(identity.hh, local.hh, const.hh) are not part of the sources under scrutiny;
they are modelled from the spec, section 3: Identity is the unit,
Constant carries an SDD payload, Local carries an identifier and a
sub-homomorphism, Fixpoint carries a sub-homomorphism, Sum carries a list of
operands (the operand pack stored after the header in the C++ code).
Identifiers and SDD payloads are abstracted by natural numbers: both are
hash-consed handles whose only observable is (decidable) identity.
-/

/-- Modelled from the spec: the homomorphism sum type of section 3.  The
variants relevant to the claims are kept; Constant doubles as an arbitrary
generic variant (one that is none of Identity, Local, Fixpoint, Sum) for the
catch-all overloads of the C++ builder visitors. -/
inductive homomorphism : Type where
  | identity : homomorphism
  | constant (c : Nat) : homomorphism
  | loc (id : Nat) (h : homomorphism) : homomorphism
  | fixpoint (h : homomorphism) : homomorphism
  | sum (ops : List homomorphism) : homomorphism

mutual

/-- Decidable equality of homomorphisms: hash-consed handles compare by
structural equality of the interned payloads (spec, section 4.A). -/
def homomorphism.decEq : (a b : homomorphism) → Decidable (a = b)
  | .identity, .identity => .isTrue rfl
  | .identity, .constant _ => .isFalse nofun
  | .identity, .loc _ _ => .isFalse nofun
  | .identity, .fixpoint _ => .isFalse nofun
  | .identity, .sum _ => .isFalse nofun
  | .constant _, .identity => .isFalse nofun
  | .constant c, .constant d =>
      if h : c = d then .isTrue (by rw [h]) else .isFalse (by intro hh; cases hh; exact h rfl)
  | .constant _, .loc _ _ => .isFalse nofun
  | .constant _, .fixpoint _ => .isFalse nofun
  | .constant _, .sum _ => .isFalse nofun
  | .loc _ _, .identity => .isFalse nofun
  | .loc _ _, .constant _ => .isFalse nofun
  | .loc i a, .loc j b =>
      match Nat.decEq i j, homomorphism.decEq a b with
      | .isTrue h1, .isTrue h2 => .isTrue (by rw [h1, h2])
      | .isFalse h1, _ => .isFalse (by intro hh; cases hh; exact h1 rfl)
      | _, .isFalse h2 => .isFalse (by intro hh; cases hh; exact h2 rfl)
  | .loc _ _, .fixpoint _ => .isFalse nofun
  | .loc _ _, .sum _ => .isFalse nofun
  | .fixpoint _, .identity => .isFalse nofun
  | .fixpoint _, .constant _ => .isFalse nofun
  | .fixpoint _, .loc _ _ => .isFalse nofun
  | .fixpoint a, .fixpoint b =>
      match homomorphism.decEq a b with
      | .isTrue h => .isTrue (by rw [h])
      | .isFalse h => .isFalse (by intro hh; cases hh; exact h rfl)
  | .fixpoint _, .sum _ => .isFalse nofun
  | .sum _, .identity => .isFalse nofun
  | .sum _, .constant _ => .isFalse nofun
  | .sum _, .loc _ _ => .isFalse nofun
  | .sum _, .fixpoint _ => .isFalse nofun
  | .sum l, .sum m =>
      match homomorphism.decEqList l m with
      | .isTrue h => .isTrue (by rw [h])
      | .isFalse h => .isFalse (by intro hh; cases hh; exact h rfl)

/-- Decidable equality of homomorphism operand lists. -/
def homomorphism.decEqList : (l m : List homomorphism) → Decidable (l = m)
  | [], [] => .isTrue rfl
  | [], _ :: _ => .isFalse nofun
  | _ :: _, [] => .isFalse nofun
  | a :: l, b :: m =>
      match homomorphism.decEq a b, homomorphism.decEqList l m with
      | .isTrue h1, .isTrue h2 => .isTrue (by rw [h1, h2])
      | .isFalse h1, _ => .isFalse (by intro hh; cases hh; exact h1 rfl)
      | _, .isFalse h2 => .isFalse (by intro hh; cases hh; exact h2 rfl)

end

instance : DecidableEq homomorphism := homomorphism.decEq

/-- Fixpoint smart constructor, from src/sdd/hom/fixpoint.hh
(fixpoint_builder_helper and Fixpoint, lines 98-145):
* the identity overload returns the argument itself;
* the fixpoint overload returns f.hom(), the homomorphism wrapped by the
  fixpoint node;
* the local overload returns Local(l.variable(), Fixpoint(l.hom()));
* the catch-all overload wraps the argument in a fixpoint node. -/
def Fixpoint : homomorphism → homomorphism
  | .identity => .identity
  | .fixpoint f => f
  | .loc i h => .loc i (Fixpoint h)
  | h => .fixpoint h

/-!
## Variable order

From src/sdd/order/order.hh.  An order is a linked list of nodes, each node
carrying a library variable, an optional user identifier, an optional nested
order and the next order; a null order_ptr_type is the empty order.
Identifiers are abstracted by naturals; the Variable type of the
configuration is abstracted by naturals as well.
-/

/-- Modelled from the spec: variable_traits (src/sdd/conf/variable_traits.hh is
not part of the sources) provides a configured seed first() for the Variable
type; this is the seed. -/
def vfirst : Nat := 0

/-- Modelled from the spec: variable_traits provides a monotone successor
next(x) on the Variable type. -/
def vnext (v : Nat) : Nat := v + 1

/-- An order node (struct node, src/sdd/order/order.hh lines 35-71) or the
null pointer (empty order).  Fields of a node: the library variable, the
optional user identifier (nullptr for artificial nodes), the nested order and
the next order. -/
inductive order : Type where
  | empty : order
  | node (var : Nat) (identifier : Option Nat) (nested : order) (next : order) : order
deriving DecidableEq

/-- order::add(id, nested_ptr), src/sdd/order/order.hh lines 241-255: the new
head variable is variable_traits::first() when the order is empty and
variable_traits::next of the current head variable otherwise; the new node is
prepended. -/
def order.add (o : order) (id : Nat) (nested : order) : order :=
  let var := match o with
    | .empty => vfirst
    | .node v _ _ _ => vnext v
  .node var (some id) nested o

/-- order::add(id), src/sdd/order/order.hh lines 227-231: add with a null
nested order. -/
def order.add1 (o : order) (id : Nat) : order :=
  o.add id .empty

/-- order(InputIterator, InputIterator), src/sdd/order/order.hh lines 120-129:
starting from the empty order, add every identifier of the range in reverse
order. -/
def order.fromList (ids : List Nat) : order :=
  ids.reverse.foldl (fun o id => o.add1 id) order.empty

/-- The spine of an order: the (variable, identifier) pairs of the nodes
reachable through next, head first. -/
def order.spine : order → List (Nat × Option Nat)
  | .empty => []
  | .node v oid _ nxt => (v, oid) :: nxt.spine

/-- The nodes of an order in the traversal used by identifier_variable: for
each node, first the node itself, then its nested order recursively, then its
next order. -/
def order.preorderNodes : order → List (Nat × Option Nat)
  | .empty => []
  | .node v oid nd nxt => (v, oid) :: (nd.preorderNodes ++ nxt.preorderNodes)

/-- The helper lambda of order::identifier_variable, src/sdd/order/order.hh
lines 193-214: a null pointer yields nothing; a node carrying the identifier
yields its variable; otherwise the nested order is searched first, then the
next order. -/
def order.idVarHelper (id : Nat) : order → Option Nat
  | .empty => none
  | .node v oid nd nxt =>
      if oid = some id then some v
      else
        match order.idVarHelper id nd with
        | some res => some res
        | none => order.idVarHelper id nxt

/-- order::identifier_variable, src/sdd/order/order.hh lines 188-225: run the
helper on the order; on failure throw std::runtime_error. -/
def order.identifier_variable (o : order) (id : Nat) : Except String Nat :=
  match order.idVarHelper id o with
  | some v => .ok v
  | none => .error "Identifier not found."

/-- The expected variable assignment of a spine of n nodes: the deepest node
carries vfirst, each node above carries the successor of the node below. -/
def varsSpec : Nat → List Nat
  | 0 => []
  | n + 1 => vnext^[n] vfirst :: varsSpec n

end sdd

/-!
## Sum smart constructor

From src/sdd/hom/sum.hh.  The builder walks the operand range with a visitor
(sum_builder_helper): nested sums are flattened by visiting their own
operands, Local operands are regrouped per identifier in an unordered_map,
every other operand goes into a boost flat_set (a sorted duplicate-free
sequence ordered by handle identity).  Afterwards each identifier of the map
yields one Local(id, Sum(children)) operand inserted into the set, a single
remaining operand is returned as is, and otherwise a sum node over the set is
interned.
-/

namespace sdd

mutual

/-- Structural encoding of a homomorphism as a list of naturals, used to give
the flat_set of operands a concrete strict order (the C++ set is ordered by
handle identity, arbitrary but fixed; spec, design note 2 leaves the choice
open). -/
def homomorphism.enc : homomorphism → List Nat
  | .identity => [0]
  | .constant c => [1, c]
  | .loc i h => 2 :: i :: h.enc
  | .fixpoint h => 3 :: h.enc
  | .sum l => 4 :: l.length :: homomorphism.encList l

/-- Concatenated encodings of a list of homomorphisms. -/
def homomorphism.encList : List homomorphism → List Nat
  | [] => []
  | h :: t => h.enc ++ homomorphism.encList t

end

/-- Lexicographic comparison of natural-number lists. -/
def natListLt : List Nat → List Nat → Bool
  | [], [] => false
  | [], _ :: _ => true
  | _ :: _, [] => false
  | a :: as, b :: bs => a < b || (a == b && natListLt as bs)

/-- The strict order on interned homomorphism handles used by the flat_set of
operands. -/
def homomorphism.lt (a b : homomorphism) : Bool :=
  natListLt a.enc b.enc

/-- operands.insert(h): ordered insertion into the flat_set of operands, a
no-op when the operand is already present. -/
def insertOp (h : homomorphism) : List homomorphism → List homomorphism
  | [] => [h]
  | x :: xs =>
      if h = x then x :: xs
      else if homomorphism.lt h x then h :: x :: xs
      else x :: insertOp h xs

/-- The Local overload of sum_builder_helper (src/sdd/hom/sum.hh lines
211-219): locals.emplace(l.identifier(), ...) then emplace_back(l.hom()),
that is, append the sub-homomorphism to the list attached to the identifier,
creating the entry if needed.  The unordered_map is modelled by an
association list in first-insertion order (its iteration order is
unspecified in C++). -/
def addLocal (i : Nat) (h : homomorphism) :
    List (Nat × List homomorphism) → List (Nat × List homomorphism)
  | [] => [(i, [h])]
  | (j, cs) :: rest =>
      if j = i then (j, cs ++ [h]) :: rest else (j, cs) :: addLocal i h rest

/-- The state threaded through sum_builder_helper: the flat_set of generic
operands and the identifier-to-sub-homomorphisms map of Local operands. -/
structure BuildState where
  operands : List homomorphism
  locals : List (Nat × List homomorphism)

/-- apply_visitor(sbv, ...) over a range of operands (Sum, src/sdd/hom/sum.hh
lines 253-256, with sum_builder_helper lines 199-229): a sum operand is
flattened by visiting its own operands, a Local operand is recorded in the
locals map, every other operand is inserted into the flat_set. -/
def sumVisitList : List homomorphism → BuildState → BuildState
  | [], st => st
  | .sum ys :: rest, st => sumVisitList rest (sumVisitList ys st)
  | .loc i h :: rest, st => sumVisitList rest ⟨st.operands, addLocal i h st.locals⟩
  | h :: rest, st => sumVisitList rest ⟨insertOp h st.operands, st.locals⟩

mutual

/-- Weight of a homomorphism, used as termination measure of the builder. -/
def homomorphism.w : homomorphism → Nat
  | .identity => 1
  | .constant _ => 1
  | .loc _ h => 1 + h.w
  | .fixpoint h => 1 + h.w
  | .sum l => 1 + homomorphism.wList l

/-- Total weight of a list of homomorphisms. -/
def homomorphism.wList : List homomorphism → Nat
  | [] => 0
  | h :: t => h.w + homomorphism.wList t

end

mutual

/-- Weight of the Local children a homomorphism contributes to the locals map
of the sum builder. -/
def homomorphism.locW : homomorphism → Nat
  | .loc _ h => h.w
  | .sum l => homomorphism.locWList l
  | _ => 0

/-- Total Local-children weight of a list of homomorphisms. -/
def homomorphism.locWList : List homomorphism → Nat
  | [] => 0
  | h :: t => h.locW + homomorphism.locWList t

end

/-- Total weight of the children lists recorded in the locals map. -/
def localsW : List (Nat × List homomorphism) → Nat
  | [] => 0
  | (_, cs) :: rest => homomorphism.wList cs + localsW rest

end sdd

namespace sdd

mutual

theorem homomorphism.locW_lt : ∀ h : homomorphism, h.locW < h.w
  | .identity => by simp [homomorphism.locW, homomorphism.w]
  | .constant c => by simp [homomorphism.locW, homomorphism.w]
  | .loc i h => by simp [homomorphism.locW, homomorphism.w]
  | .fixpoint h => by simp [homomorphism.locW, homomorphism.w]
  | .sum l => by
      have h1 := homomorphism.locWList_le l
      simp only [homomorphism.locW, homomorphism.w]
      omega

theorem homomorphism.locWList_le :
    ∀ l : List homomorphism, homomorphism.locWList l ≤ homomorphism.wList l
  | [] => Nat.le_refl 0
  | h :: t => by
      have h1 := homomorphism.locW_lt h
      have h2 := homomorphism.locWList_le t
      simp only [homomorphism.locWList, homomorphism.wList]
      omega

end

theorem homomorphism.wList_append :
    ∀ l m : List homomorphism, homomorphism.wList (l ++ m)
      = homomorphism.wList l + homomorphism.wList m
  | [], m => by simp [homomorphism.wList]
  | h :: t, m => by
      have ih := homomorphism.wList_append t m
      simp only [List.cons_append, homomorphism.wList, List.append_eq] at *
      omega

theorem localsW_addLocal (i : Nat) (h : homomorphism) :
    ∀ l, localsW (addLocal i h l) = localsW l + h.w
  | [] => by simp [addLocal, localsW, homomorphism.wList]
  | (j, cs) :: rest => by
      by_cases hj : j = i
      · simp [addLocal, hj, localsW, homomorphism.wList_append, homomorphism.wList]
        omega
      · have := localsW_addLocal i h rest
        simp [addLocal, hj, localsW]
        omega

theorem sumVisitList_localsW : ∀ (ops : List homomorphism) (st : BuildState),
    localsW (sumVisitList ops st).locals = localsW st.locals + homomorphism.locWList ops
  | [], st => by simp [sumVisitList, homomorphism.locWList]
  | .identity :: rest, st => by
      have h2 := sumVisitList_localsW rest ⟨insertOp .identity st.operands, st.locals⟩
      simp only [sumVisitList, homomorphism.locWList, homomorphism.locW] at *
      omega
  | .constant c :: rest, st => by
      have h2 := sumVisitList_localsW rest ⟨insertOp (.constant c) st.operands, st.locals⟩
      simp only [sumVisitList, homomorphism.locWList, homomorphism.locW] at *
      omega
  | .fixpoint h :: rest, st => by
      have h2 := sumVisitList_localsW rest ⟨insertOp (.fixpoint h) st.operands, st.locals⟩
      simp only [sumVisitList, homomorphism.locWList, homomorphism.locW] at *
      omega
  | .loc i h :: rest, st => by
      have h2 := sumVisitList_localsW rest ⟨st.operands, addLocal i h st.locals⟩
      simp only [sumVisitList, homomorphism.locWList, homomorphism.locW,
        localsW_addLocal] at *
      omega
  | .sum ys :: rest, st => by
      have h1 := sumVisitList_localsW ys st
      have h2 := sumVisitList_localsW rest (sumVisitList ys st)
      simp only [sumVisitList, homomorphism.locWList, homomorphism.locW] at *
      omega

theorem wList_le_localsW_of_mem {i : Nat} {cs : List homomorphism} :
    ∀ l, (i, cs) ∈ l → homomorphism.wList cs ≤ localsW l
  | [], hmem => by cases hmem
  | (j, ds) :: rest, hmem => by
      rcases List.mem_cons.mp hmem with h1 | h2
      · cases h1
        simp only [localsW]
        omega
      · have := wList_le_localsW_of_mem rest h2
        simp only [localsW]
        omega

theorem mem_locals_wList_lt {ops s0 : List homomorphism}
    {p : Nat × List homomorphism}
    (hp : p ∈ (sumVisitList ops ⟨s0, []⟩).locals) :
    homomorphism.wList p.2 < homomorphism.wList ops := by
  cases ops with
  | nil => simp [sumVisitList] at hp
  | cons a rest =>
      have hle : homomorphism.wList p.2
          ≤ localsW (sumVisitList (a :: rest) ⟨s0, []⟩).locals := by
        have : (p.1, p.2) ∈ (sumVisitList (a :: rest) ⟨s0, []⟩).locals := by
          simpa using hp
        exact wList_le_localsW_of_mem _ this
      have h1 := sumVisitList_localsW (a :: rest) ⟨s0, []⟩
      have h2 : homomorphism.locWList (a :: rest) < homomorphism.wList (a :: rest) := by
        have h3 := homomorphism.locW_lt a
        have h4 := homomorphism.locWList_le rest
        simp only [homomorphism.locWList, homomorphism.wList]
        omega
      simp only [localsW] at h1
      omega

end sdd

namespace sdd

/-- The body of Sum past its empty-range check (src/sdd/hom/sum.hh lines
248-272): visit all operands, then insert one Local(id, Sum(children)) per
identifier of the locals map (the recursive Sum call on a children list,
always non-empty, never takes the empty-range error path), then return the
sole operand if exactly one remains, and otherwise intern a sum node over
the flat_set. -/
def SumBuild (o : order) (ops : List homomorphism) : homomorphism :=
  let st := sumVisitList ops ⟨[], []⟩
  let fin :=
    (st.locals.attach.map
      (fun p => homomorphism.loc p.1.1 (SumBuild o p.1.2))).foldl
      (fun acc h => insertOp h acc) st.operands
  match fin with
  | [h] => h
  | _ => .sum fin
termination_by homomorphism.wList ops
decreasing_by
  exact mem_locals_wList_lt p.2

/-- Sum smart constructor (src/sdd/hom/sum.hh lines 237-273): an empty
operand range throws std::invalid_argument, otherwise the builder runs. -/
def Sum (o : order) (ops : List homomorphism) : Except String homomorphism :=
  if ops.isEmpty then .error "Empty operands at Sum construction."
  else .ok (SumBuild o ops)

/-- The final flat_set of operands assembled by the builder, before the
singleton collapse. -/
def sumFinalOps (o : order) (ops : List homomorphism) : List homomorphism :=
  let st := sumVisitList ops ⟨[], []⟩
  (st.locals.attach.map
    (fun p => homomorphism.loc p.1.1 (SumBuild o p.1.2))).foldl
    (fun acc h => insertOp h acc) st.operands

/-- Recursive flattening of sum operands: the list of non-sum homomorphisms
encountered by the builder visitor, in visit order. -/
def flattenOps : List homomorphism → List homomorphism
  | [] => []
  | .sum ys :: rest => flattenOps ys ++ flattenOps rest
  | h :: rest => h :: flattenOps rest

/-- The locals map produced by folding addLocal over the Local operands of a
list, in order. -/
def collectLocals : List homomorphism → List (Nat × List homomorphism)
    → List (Nat × List homomorphism)
  | [], acc => acc
  | .loc i h :: rest, acc => collectLocals rest (addLocal i h acc)
  | _ :: rest, acc => collectLocals rest acc

/-- Lookup of an identifier in the locals map. -/
def lookupLocal (i : Nat) : List (Nat × List homomorphism) → Option (List homomorphism)
  | [] => none
  | (j, cs) :: rest => if j = i then some cs else lookupLocal i rest

/-- Whether a homomorphism is a Local node. -/
def homomorphism.isLoc : homomorphism → Bool
  | .loc _ _ => true
  | _ => false

/-- Whether a homomorphism is a sum node. -/
def homomorphism.isSum : homomorphism → Bool
  | .sum _ => true
  | _ => false

end sdd

/-!
## Operation cache

From src/sdd/mem/cache.hh: a bounded map from operations to results with LFU
cleanup and per-round statistics.  Counters are C++ unsigned integers:
the statistics are std::size_t and the per-entry nb_hits_ is an unsigned int,
so increments and decrements wrap at the respective word sizes.
The boost intrusive unordered_set is abstracted by a list of entries (lookup
compares operations for equality; the hash is only a bucket index).
-/

namespace sdd

/-- Modulus of std::size_t counters. -/
def w64 : Nat := 2 ^ 64

/-- Increment of a size_t counter. -/
def inc64 (n : Nat) : Nat := (n + 1) % w64

/-- Decrement of a size_t counter; decrementing zero wraps around, as C++
unsigned arithmetic does. -/
def dec64 (n : Nat) : Nat := (n + (w64 - 1)) % w64

/-- Modulus of the unsigned int nb_hits_ field. -/
def w32 : Nat := 2 ^ 32

/-- Increment of an unsigned int counter. -/
def inc32 (n : Nat) : Nat := (n + 1) % w32

/-- One round of cache_statistics (src/sdd/mem/cache.hh lines 56-77), zero
initialized. -/
structure cache_round where
  hits : Nat
  misses : Nat
  filtered : Nat
deriving DecidableEq

/-- A cache entry (src/sdd/mem/cache.hh lines 148-185): the cached operation,
the result of its evaluation and the mutable nb_hits_ access counter. -/
structure cache_entry (Op R : Type) where
  operation : Op
  result : R
  nb_hits : Nat
deriving DecidableEq

/-- The cache (src/sdd/mem/cache.hh lines 130-367): the stored entries, the
statistics rounds (front first; the constructor creates a single round) and
the maximum entry count. -/
structure cache (Op R : Type) where
  entries : List (cache_entry Op R)
  rounds : List cache_round
  max_size : Nat
deriving DecidableEq

/-- Modelled from the spec (evaluation_error.hh is not part of the sources,
sections 4.G and 7): an EvaluationError is constructed from the SDD being
evaluated, wraps an optional Top and carries a breadcrumb chain of the
operations through which it passed. -/
structure evaluation_error (Sd Tp Op : Type) where
  operand : Option Sd
  top : Option Tp
  steps : List Op
deriving DecidableEq

/-- Modelled from the spec: e.add_step(op) appends the current operation to
the breadcrumb chain of the error (spec, section 4.G). -/
def add_step (e : evaluation_error Sd Tp Op) (op : Op) : evaluation_error Sd Tp Op :=
  { e with steps := e.steps ++ [op] }

/-- Modelled from the spec: e.add_top(t) records the Top wrapped by the
error. -/
def add_top (e : evaluation_error Sd Tp Op) (t : Tp) : evaluation_error Sd Tp Op :=
  { e with top := some t }

/-- Increment of the current round's filtered counter
(++stats_.rounds.front().filtered). -/
def incFiltered : List cache_round → List cache_round
  | [] => []
  | r :: rs => { r with filtered := inc64 r.filtered } :: rs

/-- Decrement of the current round's filtered counter. -/
def decFiltered : List cache_round → List cache_round
  | [] => []
  | r :: rs => { r with filtered := dec64 r.filtered } :: rs

/-- Increment of the current round's hits counter. -/
def incHits : List cache_round → List cache_round
  | [] => []
  | r :: rs => { r with hits := inc64 r.hits } :: rs

/-- Increment of the current round's misses counter. -/
def incMisses : List cache_round → List cache_round
  | [] => []
  | r :: rs => { r with misses := inc64 r.misses } :: rs

/-- Decrement of the current round's misses counter. -/
def decMisses : List cache_round → List cache_round
  | [] => []
  | r :: rs => { r with misses := dec64 r.misses } :: rs

/-- set_->insert_check (src/sdd/mem/cache.hh lines 270-275): find the entry
whose operation equals the looked-up operation. -/
def findEntry [DecidableEq Op] (op : Op) : List (cache_entry Op R) → Option (cache_entry Op R)
  | [] => none
  | e :: rest => if e.operation = op then some e else findEntry op rest

/-- ++insertion.first->nb_hits_ (src/sdd/mem/cache.hh line 281): bump the
access counter of the (unique) entry holding the operation. -/
def bumpHits [DecidableEq Op] (op : Op) : List (cache_entry Op R) → List (cache_entry Op R)
  | [] => []
  | e :: rest =>
      if e.operation = op then { e with nb_hits := inc32 e.nb_hits } :: rest
      else e :: bumpHits op rest

/-- Ordered insertion by nb_hits_, used to realize the nth_element partition
of cleanup. -/
def insertByHits (e : cache_entry Op R) : List (cache_entry Op R) → List (cache_entry Op R)
  | [] => [e]
  | x :: xs => if e.nb_hits ≤ x.nb_hits then e :: x :: xs else x :: insertByHits e xs

/-- Sort of the collected entries by nb_hits_. -/
def sortByHits : List (cache_entry Op R) → List (cache_entry Op R)
  | [] => []
  | e :: rest => insertByHits e (sortByHits rest)

/-- cache::cleanup (src/sdd/mem/cache.hh lines 307-334): open a new
statistics round, collect the entries, partition them around the median
nb_hits_ with std::nth_element, and erase the lower half.  nth_element only
promises that the first floor(n/2) collected entries compare less-or-equal to
all the others, ties broken arbitrarily; the full sort used here realizes one
of its permitted outcomes. -/
def cleanup (c : cache Op R) : cache Op R :=
  { c with rounds := ⟨0, 0, 0⟩ :: c.rounds,
           entries := (sortByHits c.entries).drop (c.entries.length / 2) }

/-- cache::operator() (src/sdd/mem/cache.hh lines 249-305).  filter models
the configured chain of Filters, evalFn models op() (the evaluation is
abstracted as a pure function of the operation).  An operation rejected by a
filter is evaluated outside the cache, counted as filtered; on a hit the
stored result is returned and the hit counters bumped; on a miss the misses
counter is incremented, a cleanup runs when the cache is full, the operation
is evaluated and the new entry committed.  When the evaluation throws, the
just-incremented counter of the current round is decremented, the operation
is appended to the breadcrumbs and the error is rethrown. -/
def lookup [DecidableEq Op] (filter : Op → Bool)
    (evalFn : Op → Except (evaluation_error Sd Tp Op) R)
    (c : cache Op R) (op : Op) :
    Except (evaluation_error Sd Tp Op) R × cache Op R :=
  if filter op = false then
    match evalFn op with
    | .ok r => (.ok r, { c with rounds := incFiltered c.rounds })
    | .error e => (.error (add_step e op),
        { c with rounds := decFiltered (incFiltered c.rounds) })
  else
    match findEntry op c.entries with
    | some entry =>
        (.ok entry.result,
          { c with rounds := incHits c.rounds, entries := bumpHits op c.entries })
    | none =>
        let c1 : cache Op R := { c with rounds := incMisses c.rounds }
        let c2 := if c1.max_size ≤ c1.entries.length then cleanup c1 else c1
        match evalFn op with
        | .ok r => (.ok r, { c2 with entries := c2.entries ++ [⟨op, r, 0⟩] })
        | .error e => (.error (add_step e op), { c2 with rounds := decMisses c2.rounds })

/-- cache_statistics::total (src/sdd/mem/cache.hh lines 104-118): accumulate
the rounds with size_t additions. -/
def totalRounds (rs : List cache_round) : cache_round :=
  rs.foldl
    (fun acc r => ⟨(acc.hits + r.hits) % w64, (acc.misses + r.misses) % w64,
                   (acc.filtered + r.filtered) % w64⟩)
    ⟨0, 0, 0⟩

end sdd

/-!
## Fixpoint evaluation and sum evaluation
-/

namespace sdd

/-- fixpoint::operator() (src/sdd/hom/fixpoint.hh lines 36-52): the do-while
loop x2 = x1; x1 = h_(cxt, x1); while (x1 != x2), modelled with explicit fuel
(none models a loop that has not converged within the fuel).  The type α
stands for hash-consed SDD handles, f for the evaluation of the wrapped
homomorphism in the given context, and the x1 != x2 test for handle
identity. -/
def fixpointIter {α : Type} [DecidableEq α] (f : α → α) : Nat → α → Option α
  | 0, _ => none
  | fuel + 1, x =>
      let x1 := f x
      if x1 = x then some x1 else fixpointIter f fuel x1

/-- The operand-evaluation loop of sum::operator() (src/sdd/hom/sum.hh lines
70-74): each operand is evaluated on the input and the results collected in
order; an EvaluationError thrown by an operand propagates. -/
def sumEvalOps {Sd Tp : Type}
    (evalOp : homomorphism → Sd → Except (evaluation_error Sd Tp homomorphism) Sd) :
    List homomorphism → Sd → Except (evaluation_error Sd Tp homomorphism) (List Sd)
  | [], _ => .ok []
  | op :: rest, x =>
      match evalOp op x with
      | .error e => .error e
      | .ok r =>
          match sumEvalOps evalOp rest x with
          | .error e => .error e
          | .ok rsl => .ok (r :: rsl)

/-- sum::operator() (src/sdd/hom/sum.hh lines 65-85): evaluate every operand
on the input, then combine the results with dd::sum; when dd::sum throws a
Top t, build evaluation_error e(x), call e.add_top(t) and throw e. -/
def sumEval {Sd Tp : Type}
    (evalOp : homomorphism → Sd → Except (evaluation_error Sd Tp homomorphism) Sd)
    (ddSum : List Sd → Except Tp Sd) (ops : List homomorphism) (x : Sd) :
    Except (evaluation_error Sd Tp homomorphism) Sd :=
  match sumEvalOps evalOp ops x with
  | .error e => .error e
  | .ok results =>
      match ddSum results with
      | .ok r => .ok r
      | .error t => .error (add_top ⟨some x, none, []⟩ t)

end sdd

/-!
## Theorems for the claims and their supporting lemmas
-/

/-- Claim C1: the claim states that Fixpoint(Fixpoint(h)) = Fixpoint(h) for
every homomorphism h.  The code violates it: fixpoint_builder_helper's
overload for a fixpoint argument (src/sdd/hom/fixpoint.hh lines 111-116)
returns f.hom(), the homomorphism wrapped inside the fixpoint node, instead of
the fixpoint node itself.  Hence Fixpoint(Fixpoint(h)) builds h for any h that
is not Identity, Local or Fixpoint - here h = Constant(|0|) - while
Fixpoint(h) is a fixpoint node, a different hash-consed handle. -/
theorem c1_fixpoint_builder_not_idempotent :
    sdd.Fixpoint (sdd.Fixpoint (.constant 0)) = .constant 0
      ∧ sdd.Fixpoint (sdd.Fixpoint (.constant 0)) ≠ sdd.Fixpoint (.constant 0) := by
  constructor
  · rfl
  · decide


/-! ## Order theorems (claims C8 and C10) -/

namespace sdd

theorem order.fromList_cons (i : Nat) (rest : List Nat) :
    order.fromList (i :: rest) = (order.fromList rest).add1 i := by
  simp [order.fromList, List.foldl_append]

theorem order.spine_add1 (o : order) (i : Nat) :
    (o.add1 i).spine
      = ((match o with | .empty => vfirst | .node v _ _ _ => vnext v), some i) :: o.spine := by
  cases o <;> rfl

theorem order.fromList_spine_snd (ids : List Nat) :
    (order.fromList ids).spine.map Prod.snd = ids.map some := by
  induction ids with
  | nil => rfl
  | cons i rest ih =>
      rw [order.fromList_cons, order.spine_add1]
      simpa using ih

theorem order.fromList_spine_fst (ids : List Nat) :
    (order.fromList ids).spine.map Prod.fst = varsSpec ids.length := by
  induction ids with
  | nil => rfl
  | cons i rest ih =>
      rw [order.fromList_cons, order.spine_add1]
      cases hr : order.fromList rest with
      | empty =>
          have hrest : rest = [] := by
            have hsnd := order.fromList_spine_snd rest
            rw [hr] at hsnd
            simp only [order.spine, List.map_nil] at hsnd
            cases rest with
            | nil => rfl
            | cons a l => simp at hsnd
          subst hrest
          rfl
      | node v oid nd nxt =>
          rw [hr] at ih
          cases hn : rest.length with
          | zero =>
              rw [hn] at ih
              simp [order.spine, varsSpec] at ih
          | succ k =>
              rw [hn] at ih
              simp only [order.spine, List.map_cons, varsSpec, List.cons.injEq] at ih
              simp only [order.spine, List.map_cons, List.length_cons, hn, varsSpec,
                List.cons.injEq]
              exact ⟨by rw [ih.1, ← Function.iterate_succ_apply' vnext k vfirst], ih.1, ih.2⟩

theorem varsSpec_get (n k : Nat) (h : k < n) :
    (varsSpec n)[k]? = some (vnext^[n - 1 - k] vfirst) := by
  induction n generalizing k with
  | zero => omega
  | succ n ih =>
      cases k with
      | zero => simp [varsSpec]
      | succ k =>
          have hk : k < n := by omega
          have h2 := ih k hk
          have h3 : n - 1 - k = n + 1 - 1 - (k + 1) := by omega
          rw [h3] at h2
          simpa [varsSpec] using h2

end sdd

/-- Claim C8: order::add(id) prepends a node whose variable is
variable_traits::first() when the order was empty and variable_traits::next(v)
of the previous head variable v otherwise; consequently order(InputIterator,
InputIterator) on an identifier list produces nodes whose identifiers appear
in list order from the head, each node variable being the successor of the
variable of the node after it (the deepest node carrying the seed). -/
theorem c8_order_add_assigns_successor_variables :
    (∀ id nst, sdd.order.add .empty id nst
        = sdd.order.node sdd.vfirst (some id) nst .empty)
  ∧ (∀ v oid nd nxt id nst,
      sdd.order.add (.node v oid nd nxt) id nst
        = sdd.order.node (sdd.vnext v) (some id) nst (.node v oid nd nxt))
  ∧ (∀ ids : List Nat, (sdd.order.fromList ids).spine.map Prod.snd = ids.map some)
  ∧ (∀ ids : List Nat, (sdd.order.fromList ids).spine.map Prod.fst = sdd.varsSpec ids.length)
  ∧ (∀ ids : List Nat, ∀ k, k + 1 < ids.length →
      ∃ v, ((sdd.order.fromList ids).spine.map Prod.fst)[k + 1]? = some v
        ∧ ((sdd.order.fromList ids).spine.map Prod.fst)[k]? = some (sdd.vnext v)) := by
  refine ⟨fun id nst => rfl, fun v oid nd nxt id nst => rfl,
    sdd.order.fromList_spine_snd, sdd.order.fromList_spine_fst, ?_⟩
  intro ids k hk
  rw [sdd.order.fromList_spine_fst]
  refine ⟨sdd.vnext^[ids.length - 1 - (k + 1)] sdd.vfirst, ?_, ?_⟩
  · exact sdd.varsSpec_get ids.length (k + 1) hk
  · have hm : ids.length - 1 - k = (ids.length - 1 - (k + 1)) + 1 := by omega
    rw [sdd.varsSpec_get ids.length k (by omega), hm, Function.iterate_succ_apply']

/-- Witness for claim C8: the successor-variable property applied to the
concrete identifier list [3, 4, 5] at position 0. -/
theorem c8_witness :
    ∃ v, ((sdd.order.fromList [3, 4, 5]).spine.map Prod.fst)[0 + 1]? = some v
      ∧ ((sdd.order.fromList [3, 4, 5]).spine.map Prod.fst)[0]? = some (sdd.vnext v) :=
  c8_order_add_assigns_successor_variables.2.2.2.2 [3, 4, 5] 0 (by decide)

namespace sdd

theorem order.idVarHelper_eq_find (id : Nat) :
    ∀ o : order, order.idVarHelper id o
      = ((o.preorderNodes.find? (fun p => p.2 = some id)).map Prod.fst)
  | .empty => rfl
  | .node v oid nd nxt => by
      have ihn := order.idVarHelper_eq_find id nd
      have ihx := order.idVarHelper_eq_find id nxt
      simp only [order.idVarHelper, order.preorderNodes]
      by_cases h : oid = some id
      · rw [if_pos h, List.find?_cons_of_pos _ (by simpa using h)]
        rfl
      · rw [if_neg h, List.find?_cons_of_neg _ (by simpa using h), List.find?_append, ihn, ihx]
        cases hf : nd.preorderNodes.find? (fun p => decide (p.2 = some id)) with
        | none => simp
        | some q => simp

end sdd

/-- Claim C10: order::identifier_variable(id) returns the variable of the
first node whose identifier equals id in the traversal that visits, for each
node, first the node itself, then its nested order recursively, then its next
order; when no node carries id it throws std::runtime_error. -/
theorem c10_identifier_variable_preorder (o : sdd.order) (id : Nat) :
    sdd.order.idVarHelper id o
      = ((o.preorderNodes.find? (fun p => p.2 = some id)).map Prod.fst)
  ∧ (sdd.order.identifier_variable o id = .error "Identifier not found."
      ↔ ∀ p ∈ o.preorderNodes, p.2 ≠ some id)
  ∧ (∀ v, sdd.order.identifier_variable o id = .ok v
      ↔ (o.preorderNodes.find? (fun p => p.2 = some id)).map Prod.fst = some v) := by
  have h1 := sdd.order.idVarHelper_eq_find id o
  refine ⟨h1, ?_, ?_⟩
  · unfold sdd.order.identifier_variable
    rw [h1]
    cases hf : o.preorderNodes.find? (fun p => decide (p.2 = some id)) with
    | none =>
        simp only [Option.map_none']
        constructor
        · intro _ p hp
          have := List.find?_eq_none.mp hf p hp
          simpa using this
        · intro _
          trivial
    | some q =>
        simp only [Option.map_some']
        constructor
        · intro hq
          cases hq
        · intro hall
          exfalso
          have hmem := List.mem_of_find?_eq_some hf
          have hpred := List.find?_some hf
          exact hall q hmem (by simpa using hpred)
  · intro v
    unfold sdd.order.identifier_variable
    rw [h1]
    cases hf : o.preorderNodes.find? (fun p => decide (p.2 = some id)) with
    | none => simp
    | some q => simp

namespace sdd

theorem sumVisitList_append : ∀ (a b : List homomorphism) (st : BuildState),
    sumVisitList (a ++ b) st = sumVisitList b (sumVisitList a st)
  | [], b, st => by simp only [List.nil_append, sumVisitList]
  | .identity :: rest, b, st => by
      simp only [List.cons_append, sumVisitList]
      exact sumVisitList_append rest b _
  | .constant c :: rest, b, st => by
      simp only [List.cons_append, sumVisitList]
      exact sumVisitList_append rest b _
  | .fixpoint h :: rest, b, st => by
      simp only [List.cons_append, sumVisitList]
      exact sumVisitList_append rest b _
  | .loc i h :: rest, b, st => by
      simp only [List.cons_append, sumVisitList]
      exact sumVisitList_append rest b _
  | .sum ys :: rest, b, st => by
      simp only [List.cons_append, sumVisitList]
      exact sumVisitList_append rest b _

theorem sumVisitList_flatten (xs ys zs : List homomorphism) (st : BuildState) :
    sumVisitList (xs ++ .sum ys :: zs) st = sumVisitList (xs ++ (ys ++ zs)) st := by
  rw [sumVisitList_append xs (.sum ys :: zs) st, sumVisitList_append xs (ys ++ zs) st,
    sumVisitList_append ys zs (sumVisitList xs st)]
  simp only [sumVisitList]

theorem SumBuild_state_eq (o : order) (ops1 ops2 : List homomorphism)
    (h : sumVisitList ops1 ⟨[], []⟩ = sumVisitList ops2 ⟨[], []⟩) :
    SumBuild o ops1 = SumBuild o ops2 := by
  unfold SumBuild
  rw [h]

end sdd

namespace sdd

theorem mem_insertOp (x h : homomorphism) :
    ∀ l, x ∈ insertOp h l ↔ x = h ∨ x ∈ l
  | [] => by simp [insertOp]
  | y :: ys => by
      have ih := mem_insertOp x h ys
      simp only [insertOp]
      split
      · next he =>
          subst he
          simp only [List.mem_cons]
          tauto
      · split
        · simp [List.mem_cons]
        · simp only [List.mem_cons, ih]
          tauto

theorem mem_foldl_insertOp (x : homomorphism) :
    ∀ (hs acc : List homomorphism),
      x ∈ hs.foldl (fun acc h => insertOp h acc) acc ↔ x ∈ hs ∨ x ∈ acc
  | [], acc => by simp
  | h :: t, acc => by
      have ih := mem_foldl_insertOp x t (insertOp h acc)
      simp only [List.foldl_cons, ih, mem_insertOp, List.mem_cons]
      tauto

theorem operands_no_loc : ∀ (ops : List homomorphism) (st : BuildState),
    (∀ x ∈ st.operands, x.isLoc = false) →
    ∀ x ∈ (sumVisitList ops st).operands, x.isLoc = false
  | [], st, hst => by
      simpa only [sumVisitList] using hst
  | .identity :: rest, st, hst => by
      simp only [sumVisitList]
      refine operands_no_loc rest ⟨insertOp .identity st.operands, st.locals⟩ ?_
      intro x hx
      rcases (mem_insertOp x _ _).mp hx with h | h
      · subst h; rfl
      · exact hst x h
  | .constant c :: rest, st, hst => by
      simp only [sumVisitList]
      refine operands_no_loc rest ⟨insertOp (.constant c) st.operands, st.locals⟩ ?_
      intro x hx
      rcases (mem_insertOp x _ _).mp hx with h | h
      · subst h; rfl
      · exact hst x h
  | .fixpoint h :: rest, st, hst => by
      simp only [sumVisitList]
      refine operands_no_loc rest ⟨insertOp (.fixpoint h) st.operands, st.locals⟩ ?_
      intro x hx
      rcases (mem_insertOp x _ _).mp hx with hh | hh
      · subst hh; rfl
      · exact hst x hh
  | .loc i h :: rest, st, hst => by
      simp only [sumVisitList]
      exact operands_no_loc rest ⟨st.operands, addLocal i h st.locals⟩ hst
  | .sum ys :: rest, st, hst => by
      simp only [sumVisitList]
      exact operands_no_loc rest (sumVisitList ys st) (operands_no_loc ys st hst)

theorem collectLocals_append : ∀ (a b : List homomorphism) acc,
    collectLocals (a ++ b) acc = collectLocals b (collectLocals a acc)
  | [], _, _ => rfl
  | .identity :: rest, b, acc => collectLocals_append rest b acc
  | .constant _ :: rest, b, acc => collectLocals_append rest b acc
  | .fixpoint _ :: rest, b, acc => collectLocals_append rest b acc
  | .loc i h :: rest, b, acc => collectLocals_append rest b (addLocal i h acc)
  | .sum _ :: rest, b, acc => collectLocals_append rest b acc

theorem sumVisitList_locals : ∀ (ops : List homomorphism) (st : BuildState),
    (sumVisitList ops st).locals = collectLocals (flattenOps ops) st.locals
  | [], st => by simp only [sumVisitList, flattenOps, collectLocals]
  | .identity :: rest, st => by
      simp only [sumVisitList, flattenOps, collectLocals]
      exact sumVisitList_locals rest _
  | .constant c :: rest, st => by
      simp only [sumVisitList, flattenOps, collectLocals]
      exact sumVisitList_locals rest _
  | .fixpoint h :: rest, st => by
      simp only [sumVisitList, flattenOps, collectLocals]
      exact sumVisitList_locals rest _
  | .loc i h :: rest, st => by
      simp only [sumVisitList, flattenOps, collectLocals]
      exact sumVisitList_locals rest _
  | .sum ys :: rest, st => by
      simp only [sumVisitList, flattenOps, collectLocals_append]
      rw [sumVisitList_locals rest (sumVisitList ys st), sumVisitList_locals ys st]

end sdd

namespace sdd

theorem mem_keys_addLocal (k i : Nat) (h : homomorphism) :
    ∀ l, k ∈ (addLocal i h l).map Prod.fst ↔ k = i ∨ k ∈ l.map Prod.fst
  | [] => by simp [addLocal]
  | (j, cs) :: rest => by
      by_cases hj : j = i
      · subst hj
        simp [addLocal]
      · have ih := mem_keys_addLocal k i h rest
        simp [addLocal, hj, ih]
        tauto

theorem nodup_addLocal (i : Nat) (h : homomorphism) :
    ∀ l, (l.map Prod.fst).Nodup → ((addLocal i h l).map Prod.fst).Nodup
  | [], _ => by simp [addLocal]
  | (j, cs) :: rest, hnd => by
      have hnd2 : j ∉ rest.map Prod.fst ∧ (rest.map Prod.fst).Nodup :=
        List.nodup_cons.mp (show (j :: rest.map Prod.fst).Nodup from hnd)
      by_cases hj : j = i
      · subst hj
        simpa [addLocal] using hnd
      · have ih := nodup_addLocal i h rest hnd2.2
        simp only [addLocal, if_neg hj, List.map_cons, List.nodup_cons]
        refine ⟨?_, ih⟩
        intro hmem
        rcases (mem_keys_addLocal j i h rest).mp hmem with h1 | h1
        · exact hj h1
        · exact hnd2.1 h1

theorem nodup_collectLocals :
    ∀ (fl : List homomorphism) (acc : List (Nat × List homomorphism)),
      (acc.map Prod.fst).Nodup → ((collectLocals fl acc).map Prod.fst).Nodup
  | [], _, hnd => hnd
  | .identity :: rest, acc, hnd => nodup_collectLocals rest acc hnd
  | .constant _ :: rest, acc, hnd => nodup_collectLocals rest acc hnd
  | .fixpoint _ :: rest, acc, hnd => nodup_collectLocals rest acc hnd
  | .loc i h :: rest, acc, hnd =>
      nodup_collectLocals rest (addLocal i h acc) (nodup_addLocal i h acc hnd)
  | .sum _ :: rest, acc, hnd => nodup_collectLocals rest acc hnd

theorem lookupLocal_eq_some_of_mem (i : Nat) (cs : List homomorphism) :
    ∀ l, (i, cs) ∈ l → (l.map Prod.fst).Nodup → lookupLocal i l = some cs
  | [], hmem, _ => by cases hmem
  | (j, ds) :: rest, hmem, hnd => by
      have hnd2 : j ∉ rest.map Prod.fst ∧ (rest.map Prod.fst).Nodup :=
        List.nodup_cons.mp (show (j :: rest.map Prod.fst).Nodup from hnd)
      rcases List.mem_cons.mp hmem with h1 | h1
      · rw [Prod.mk.injEq] at h1
        simp [lookupLocal, h1.1.symm, h1.2]
      · have hji : j ≠ i := by
          intro hji
          subst hji
          exact hnd2.1 (List.mem_map.mpr ⟨(j, cs), h1, rfl⟩)
        simp only [lookupLocal, if_neg hji]
        exact lookupLocal_eq_some_of_mem i cs rest h1 hnd2.2

theorem mem_of_lookupLocal (i : Nat) (cs : List homomorphism) :
    ∀ l, lookupLocal i l = some cs → (i, cs) ∈ l
  | [], hl => by cases hl
  | (j, ds) :: rest, hl => by
      by_cases hj : j = i
      · subst hj
        have hds : ds = cs := by simpa [lookupLocal] using hl
        subst hds
        exact List.mem_cons_self _ _
      · simp only [lookupLocal, if_neg hj] at hl
        exact List.mem_cons_of_mem _ (mem_of_lookupLocal i cs rest hl)

theorem mem_sumFinalOps_loc (o : order) (ops : List homomorphism) (i : Nat)
    (h : homomorphism) :
    homomorphism.loc i h ∈ sumFinalOps o ops ↔
      ∃ cs, lookupLocal i (collectLocals (flattenOps ops) []) = some cs
        ∧ h = SumBuild o cs := by
  unfold sumFinalOps
  constructor
  · intro hm
    rcases (mem_foldl_insertOp _ _ _).mp hm with hmap | hops
    · rcases List.mem_map.mp hmap with ⟨p, hp, heq⟩
      rw [homomorphism.loc.injEq] at heq
      obtain ⟨hqi, hqh⟩ := heq
      refine ⟨p.1.2, ?_, hqh.symm⟩
      have hql : (i, p.1.2) ∈ collectLocals (flattenOps ops) [] := by
        rw [← sumVisitList_locals ops ⟨[], []⟩]
        rw [← hqi]
        exact p.2
      exact lookupLocal_eq_some_of_mem _ _ _ hql
        (nodup_collectLocals (flattenOps ops) [] (by simp))
    · exfalso
      have hno := operands_no_loc ops ⟨[], []⟩ (by intro x hx; cases hx) _ hops
      simp [homomorphism.isLoc] at hno
  · rintro ⟨cs, hlk, hh⟩
    apply (mem_foldl_insertOp _ _ _).mpr
    left
    apply List.mem_map.mpr
    have hmem : (i, cs) ∈ (sumVisitList ops ⟨[], []⟩).locals := by
      rw [sumVisitList_locals ops ⟨[], []⟩]
      exact mem_of_lookupLocal i cs _ hlk
    refine ⟨⟨(i, cs), hmem⟩, List.mem_attach _ _, ?_⟩
    rw [hh]

theorem SumBuild_eq (o : order) (ops : List homomorphism) :
    SumBuild o ops
      = match sumFinalOps o ops with
        | [h] => h
        | _ => homomorphism.sum (sumFinalOps o ops) := by
  unfold SumBuild sumFinalOps
  rfl

end sdd

namespace sdd

theorem mem_operands_visit (x : homomorphism) : ∀ (ops : List homomorphism) (st : BuildState),
    x ∈ (sumVisitList ops st).operands
      ↔ x ∈ (flattenOps ops).filter (fun h => !h.isLoc) ∨ x ∈ st.operands
  | [], st => by simp [sumVisitList, flattenOps]
  | .identity :: rest, st => by
      have ih := mem_operands_visit x rest ⟨insertOp .identity st.operands, st.locals⟩
      simp only [sumVisitList, flattenOps]
      rw [ih]
      simp only [List.filter_cons, homomorphism.isLoc, Bool.not_false, if_pos,
        List.mem_cons, mem_insertOp]
      tauto
  | .constant c :: rest, st => by
      have ih := mem_operands_visit x rest ⟨insertOp (.constant c) st.operands, st.locals⟩
      simp only [sumVisitList, flattenOps]
      rw [ih]
      simp only [List.filter_cons, homomorphism.isLoc, Bool.not_false, if_pos,
        List.mem_cons, mem_insertOp]
      tauto
  | .fixpoint h :: rest, st => by
      have ih := mem_operands_visit x rest ⟨insertOp (.fixpoint h) st.operands, st.locals⟩
      simp only [sumVisitList, flattenOps]
      rw [ih]
      simp only [List.filter_cons, homomorphism.isLoc, Bool.not_false, if_pos,
        List.mem_cons, mem_insertOp]
      tauto
  | .loc i h :: rest, st => by
      have ih := mem_operands_visit x rest ⟨st.operands, addLocal i h st.locals⟩
      simp only [sumVisitList, flattenOps]
      rw [ih]
      simp [List.filter_cons, homomorphism.isLoc]
  | .sum ys :: rest, st => by
      have ih1 := mem_operands_visit x ys st
      have ih2 := mem_operands_visit x rest (sumVisitList ys st)
      simp only [sumVisitList, flattenOps]
      rw [ih2, ih1]
      simp only [List.filter_append, List.mem_append]
      tauto

theorem attach_map_loc (o : order) (l : List (Nat × List homomorphism)) :
    l.attach.map (fun p => homomorphism.loc p.1.1 (SumBuild o p.1.2))
      = l.map (fun q => homomorphism.loc q.1 (SumBuild o q.2)) :=
  List.attach_map_coe l (fun q => homomorphism.loc q.1 (SumBuild o q.2))

end sdd

/-- Claim C9: calling the Sum smart constructor with an empty operand range
throws std::invalid_argument (src/sdd/hom/sum.hh lines 241-246) and
constructs no homomorphism. -/
theorem c9_sum_empty_operands_throws (o : sdd.order) :
    sdd.Sum o [] = Except.error "Empty operands at Sum construction." := rfl

/-- Claim C5: the Sum smart constructor normalizes its operand list at build
time.  Conjuncts: (1) an operand that is itself a sum is replaced by its own
operands; (2) a homomorphism that is not a Local belongs to the final operand
set exactly when it occurs in the recursively flattened operand list; (3) a
Local(i, h) belongs to the final operand set exactly when the flattened
operand list contains Local operands with identifier i whose collected
sub-homomorphisms cs satisfy h = Sum(cs), so all Local operands sharing an
identifier are regrouped into that single operand; (4) a single remaining
operand is returned itself; (5) otherwise a sum node over the final operand
set is built. -/
theorem c5_sum_build_time_normalization (o : sdd.order) :
    (∀ xs ys zs : List sdd.homomorphism, xs ++ (ys ++ zs) ≠ [] →
       sdd.Sum o (xs ++ .sum ys :: zs) = sdd.Sum o (xs ++ (ys ++ zs)))
  ∧ (∀ ops : List sdd.homomorphism, ∀ x, x.isLoc = false →
       (x ∈ sdd.sumFinalOps o ops
         ↔ x ∈ (sdd.flattenOps ops).filter (fun h => !h.isLoc)))
  ∧ (∀ ops : List sdd.homomorphism, ∀ i h,
       sdd.homomorphism.loc i h ∈ sdd.sumFinalOps o ops ↔
         ∃ cs, sdd.lookupLocal i (sdd.collectLocals (sdd.flattenOps ops) []) = some cs
           ∧ h = sdd.SumBuild o cs)
  ∧ (∀ ops : List sdd.homomorphism, ∀ h,
       sdd.sumFinalOps o ops = [h] → sdd.SumBuild o ops = h)
  ∧ (∀ ops : List sdd.homomorphism, (∀ h, sdd.sumFinalOps o ops ≠ [h]) →
       sdd.SumBuild o ops = .sum (sdd.sumFinalOps o ops)) := by
  refine ⟨?_, ?_, fun ops i h => sdd.mem_sumFinalOps_loc o ops i h, ?_, ?_⟩
  · intro xs ys zs hne
    have h1 : (xs ++ sdd.homomorphism.sum ys :: zs).isEmpty = false := by
      cases xs <;> rfl
    have h2 : (xs ++ (ys ++ zs)).isEmpty = false := by
      cases hl : xs ++ (ys ++ zs) with
      | nil => exact absurd hl hne
      | cons a t => rfl
    simp only [sdd.Sum, h1, h2, Bool.false_eq_true, if_false]
    exact congrArg Except.ok
      (sdd.SumBuild_state_eq o _ _ (sdd.sumVisitList_flatten xs ys zs ⟨[], []⟩))
  · intro ops x hx
    unfold sdd.sumFinalOps
    rw [sdd.mem_foldl_insertOp]
    constructor
    · intro hm
      rcases hm with hmap | hops
      · exfalso
        rcases List.mem_map.mp hmap with ⟨p, hp, heq⟩
        rw [← heq] at hx
        simp [sdd.homomorphism.isLoc] at hx
      · exact ((sdd.mem_operands_visit x ops ⟨[], []⟩).mp hops).elim id (fun hc => absurd hc (by simp))
    · intro hm
      right
      exact (sdd.mem_operands_visit x ops ⟨[], []⟩).mpr (Or.inl hm)
  · intro ops h hfin
    rw [sdd.SumBuild_eq, hfin]
  · intro ops hfin
    rw [sdd.SumBuild_eq]
    cases hc : sdd.sumFinalOps o ops with
    | nil => rfl
    | cons a t =>
        cases t with
        | nil => exact absurd hc (hfin a)
        | cons b u => rfl

/-- Witness for claim C5: flattening a nested sum operand over the concrete
operand list [Identity] and collapsing the regrouped Local of a concrete
two-Local list, at the empty order. -/
theorem c5_witness :
    sdd.Sum .empty ([] ++ .sum [.identity] :: []) = sdd.Sum .empty ([] ++ ([.identity] ++ []))
      ∧ sdd.SumBuild .empty [.identity] = .identity :=
  ⟨(c5_sum_build_time_normalization .empty).1 [] [.identity] [] (by decide),
   (c5_sum_build_time_normalization .empty).2.2.2.1 [.identity] .identity
     (by simp [sdd.sumFinalOps, sdd.attach_map_loc, sdd.sumVisitList, sdd.insertOp])⟩

namespace sdd

theorem w64_pos : 0 < w64 := Nat.pos_pow_of_pos 64 (by decide)

theorem totalRounds_go : ∀ (rs : List cache_round) (a m f : Nat),
    rs.foldl
      (fun acc r => (⟨(acc.hits + r.hits) % w64, (acc.misses + r.misses) % w64,
                     (acc.filtered + r.filtered) % w64⟩ : cache_round))
      (⟨a % w64, m % w64, f % w64⟩ : cache_round)
      = (⟨(a + (rs.map cache_round.hits).sum) % w64,
         (m + (rs.map cache_round.misses).sum) % w64,
         (f + (rs.map cache_round.filtered).sum) % w64⟩ : cache_round)
  | [], a, m, f => by simp
  | r :: rest, a, m, f => by
      have ih := totalRounds_go rest (a + r.hits) (m + r.misses) (f + r.filtered)
      simp only [List.foldl_cons, List.map_cons, List.sum_cons]
      rw [Nat.mod_add_mod, Nat.mod_add_mod, Nat.mod_add_mod, ih]
      simp [Nat.add_assoc]

theorem totalRounds_eq (rs : List cache_round) :
    totalRounds rs
      = ⟨(rs.map cache_round.hits).sum % w64,
         (rs.map cache_round.misses).sum % w64,
         (rs.map cache_round.filtered).sum % w64⟩ := by
  have h0 : (⟨0, 0, 0⟩ : cache_round) = ⟨0 % w64, 0 % w64, 0 % w64⟩ := by simp
  rw [totalRounds, h0, totalRounds_go]
  simp

theorem dec64_inc64 (x : Nat) : dec64 (inc64 x) = x % w64 := by
  have h1 : 1 + (w64 - 1) = w64 := by
    have := w64_pos
    omega
  rw [dec64, inc64, Nat.mod_add_mod, Nat.add_assoc, h1, Nat.add_mod_right]

theorem totalRounds_replace_front (r2 r : cache_round) (rs : List cache_round)
    (hh : r2.hits % w64 = r.hits % w64) (hm : r2.misses % w64 = r.misses % w64)
    (hf : r2.filtered % w64 = r.filtered % w64) :
    totalRounds (r2 :: rs) = totalRounds (r :: rs) := by
  rw [totalRounds_eq, totalRounds_eq]
  simp only [List.map_cons, List.sum_cons]
  congr 1
  · rw [Nat.add_mod, hh, ← Nat.add_mod]
  · rw [Nat.add_mod, hm, ← Nat.add_mod]
  · rw [Nat.add_mod, hf, ← Nat.add_mod]

theorem totalRounds_merge_front (a b r : cache_round) (rs : List cache_round)
    (hh : (a.hits + b.hits) % w64 = r.hits % w64)
    (hm : (a.misses + b.misses) % w64 = r.misses % w64)
    (hf : (a.filtered + b.filtered) % w64 = r.filtered % w64) :
    totalRounds (a :: b :: rs) = totalRounds (r :: rs) := by
  rw [totalRounds_eq, totalRounds_eq]
  simp only [List.map_cons, List.sum_cons]
  congr 1
  · rw [← Nat.add_assoc, Nat.add_mod, hh, ← Nat.add_mod]
  · rw [← Nat.add_assoc, Nat.add_mod, hm, ← Nat.add_mod]
  · rw [← Nat.add_assoc, Nat.add_mod, hf, ← Nat.add_mod]

end sdd

namespace sdd

theorem mod_idem (x : Nat) : x % w64 % w64 = x % w64 :=
  Nat.mod_mod_of_dvd x dvd_rfl

theorem dec64_inc64_mod (x : Nat) : dec64 (inc64 x) % w64 = x % w64 := by
  rw [dec64_inc64, mod_idem]

theorem dec64_zero_inc64 (m : Nat) : (dec64 0 + inc64 m) % w64 = m % w64 := by
  have hgt := w64_pos
  rw [dec64, inc64, ← Nat.add_mod]
  have h1 : 0 + (w64 - 1) + (m + 1) = m + w64 := by omega
  rw [h1, Nat.add_mod_right]

end sdd

/-- Claim C2: when the evaluation of the operation throws EvaluationError
(which happens on the filtered path or on a miss, never on a hit), the cache
lookup rethrows the error after appending the current operation to its
breadcrumb list, and the cumulative statistics, summed over all rounds with
size_t arithmetic as cache_statistics::total does, are unchanged - also when
the miss triggered a cleanup before the evaluation threw, in which case the
just-opened round's zero counter is decremented and wraps around. -/
theorem c2_eval_error_rethrows_and_preserves_totals {Sd Tp Op R : Type} [DecidableEq Op]
    (filter : Op → Bool) (evalFn : Op → Except (sdd.evaluation_error Sd Tp Op) R)
    (c : sdd.cache Op R) (op : Op) (e : sdd.evaluation_error Sd Tp Op)
    (r : sdd.cache_round) (rs : List sdd.cache_round)
    (hr : c.rounds = r :: rs)
    (he : evalFn op = .error e)
    (hpath : filter op = false ∨ sdd.findEntry op c.entries = none) :
    (sdd.lookup filter evalFn c op).1 = .error (sdd.add_step e op)
  ∧ (sdd.add_step e op).steps = e.steps ++ [op]
  ∧ sdd.totalRounds (sdd.lookup filter evalFn c op).2.rounds = sdd.totalRounds c.rounds := by
  by_cases hf : filter op = false
  · have hl : sdd.lookup filter evalFn c op
        = (.error (sdd.add_step e op),
           { c with rounds := sdd.decFiltered (sdd.incFiltered c.rounds) }) := by
      simp [sdd.lookup, hf, he]
    refine ⟨by rw [hl], rfl, ?_⟩
    rw [hl, hr]
    simp only [sdd.incFiltered, sdd.decFiltered]
    exact sdd.totalRounds_replace_front _ r rs rfl rfl (sdd.dec64_inc64_mod r.filtered)
  · have hfind : sdd.findEntry op c.entries = none := by
      rcases hpath with h1 | h1
      · exact absurd h1 hf
      · exact h1
    by_cases hcl : c.max_size ≤ c.entries.length
    · have hl : sdd.lookup filter evalFn c op
          = (.error (sdd.add_step e op),
             { c with
                 rounds := sdd.decMisses ((⟨0, 0, 0⟩ : sdd.cache_round)
                   :: sdd.incMisses c.rounds),
                 entries := ((sdd.sortByHits c.entries).drop (c.entries.length / 2)) }) := by
        simp [sdd.lookup, hf, he, hfind, sdd.cleanup, hcl]
      refine ⟨by rw [hl], rfl, ?_⟩
      rw [hl, hr]
      simp only [sdd.incMisses, sdd.decMisses]
      refine sdd.totalRounds_merge_front _ _ r rs (by simp) ?_ (by simp)
      exact sdd.dec64_zero_inc64 r.misses
    · have hl : sdd.lookup filter evalFn c op
          = (.error (sdd.add_step e op),
             { c with rounds := sdd.decMisses (sdd.incMisses c.rounds) }) := by
        simp [sdd.lookup, hf, he, hfind, hcl]
      refine ⟨by rw [hl], rfl, ?_⟩
      rw [hl, hr]
      simp only [sdd.incMisses, sdd.decMisses]
      exact sdd.totalRounds_replace_front _ r rs rfl (sdd.dec64_inc64_mod r.misses) rfl

/-- Witness for claim C2: a filtered lookup of operation 7 on a fresh cache
whose evaluation throws an error with empty breadcrumbs. -/
theorem c2_witness :
    ((sdd.lookup (fun _ : Nat => false)
        (fun _ : Nat =>
          (Except.error ⟨none, none, []⟩ : Except (sdd.evaluation_error Nat Nat Nat) Nat))
        ⟨[], [⟨0, 0, 0⟩], 4⟩ 7).1
      = .error (sdd.add_step ⟨none, none, []⟩ 7))
  ∧ (sdd.add_step (⟨none, none, []⟩ : sdd.evaluation_error Nat Nat Nat) 7).steps = [] ++ [7]
  ∧ sdd.totalRounds ((sdd.lookup (fun _ : Nat => false)
        (fun _ : Nat =>
          (Except.error ⟨none, none, []⟩ : Except (sdd.evaluation_error Nat Nat Nat) Nat))
        ⟨[], [⟨0, 0, 0⟩], 4⟩ 7).2).rounds
      = sdd.totalRounds (⟨[], [⟨0, 0, 0⟩], 4⟩ : sdd.cache Nat Nat).rounds :=
  c2_eval_error_rethrows_and_preserves_totals (fun _ => false)
    (fun _ => (Except.error ⟨none, none, []⟩ : Except (sdd.evaluation_error Nat Nat Nat) Nat))
    ⟨[], [⟨0, 0, 0⟩], 4⟩ 7 ⟨none, none, []⟩ ⟨0, 0, 0⟩ [] rfl rfl (Or.inl rfl)

namespace sdd

theorem perm_insertByHits {Op R : Type} (e : cache_entry Op R) :
    ∀ l, (insertByHits e l).Perm (e :: l)
  | [] => List.Perm.refl _
  | x :: xs => by
      by_cases h : e.nb_hits ≤ x.nb_hits
      · simp [insertByHits, h]
      · simp only [insertByHits, if_neg h]
        exact ((perm_insertByHits e xs).cons x).trans (List.Perm.swap e x xs)

theorem perm_sortByHits {Op R : Type} :
    ∀ l : List (cache_entry Op R), (sortByHits l).Perm l
  | [] => List.Perm.refl _
  | e :: rest =>
      (perm_insertByHits e (sortByHits rest)).trans ((perm_sortByHits rest).cons e)

theorem pairwise_insertByHits {Op R : Type} (e : cache_entry Op R) :
    ∀ l, l.Pairwise (fun a b : cache_entry Op R => a.nb_hits ≤ b.nb_hits) →
      (insertByHits e l).Pairwise (fun a b => a.nb_hits ≤ b.nb_hits)
  | [], _ => by simp [insertByHits]
  | x :: xs, h => by
      rcases List.pairwise_cons.mp h with ⟨hx, hxs⟩
      by_cases hle : e.nb_hits ≤ x.nb_hits
      · simp only [insertByHits, if_pos hle]
        refine List.pairwise_cons.mpr ⟨?_, h⟩
        intro b hb
        rcases List.mem_cons.mp hb with h1 | h1
        · rw [h1]
          exact hle
        · exact le_trans hle (hx b h1)
      · simp only [insertByHits, if_neg hle]
        refine List.pairwise_cons.mpr ⟨?_, pairwise_insertByHits e xs hxs⟩
        intro b hb
        rcases List.mem_cons.mp ((perm_insertByHits e xs).mem_iff.mp hb) with h1 | h1
        · rw [h1]
          omega
        · exact hx b h1

theorem pairwise_sortByHits {Op R : Type} :
    ∀ l : List (cache_entry Op R),
      (sortByHits l).Pairwise (fun a b => a.nb_hits ≤ b.nb_hits)
  | [] => List.Pairwise.nil
  | e :: rest => pairwise_insertByHits e (sortByHits rest) (pairwise_sortByHits rest)

end sdd

/-- Claim C3: for a cache holding n entries, cleanup opens a new statistics
round, removes exactly floor(n/2) entries every one of which has nb_hits
less than or equal to the nb_hits of every surviving entry (ties broken
arbitrarily, as std::nth_element permits), destroys them, and leaves the
surviving entries and the rest of the cache unchanged. -/
theorem c3_cleanup_opens_round_and_evicts_lfu_half {Op R : Type} (c : sdd.cache Op R) :
    (sdd.cleanup c).rounds = ⟨0, 0, 0⟩ :: c.rounds
  ∧ (sdd.cleanup c).max_size = c.max_size
  ∧ ∃ removed : List (sdd.cache_entry Op R),
      removed.length = c.entries.length / 2
      ∧ (removed ++ (sdd.cleanup c).entries).Perm c.entries
      ∧ ∀ e ∈ removed, ∀ s ∈ (sdd.cleanup c).entries, e.nb_hits ≤ s.nb_hits := by
  refine ⟨rfl, rfl, (sdd.sortByHits c.entries).take (c.entries.length / 2), ?_, ?_, ?_⟩
  · rw [List.length_take, (sdd.perm_sortByHits c.entries).length_eq]
    exact Nat.min_eq_left (Nat.div_le_self _ 2)
  · show ((sdd.sortByHits c.entries).take (c.entries.length / 2)
        ++ (sdd.sortByHits c.entries).drop (c.entries.length / 2)).Perm c.entries
    rw [List.take_append_drop]
    exact sdd.perm_sortByHits c.entries
  · intro e he s hs
    have hp := sdd.pairwise_sortByHits c.entries
    have hp2 : ((sdd.sortByHits c.entries).take (c.entries.length / 2)
        ++ (sdd.sortByHits c.entries).drop (c.entries.length / 2)).Pairwise
          (fun a b => a.nb_hits ≤ b.nb_hits) := by
      rw [List.take_append_drop]
      exact hp
    exact (List.pairwise_append.mp hp2).2.2 e he s hs

namespace sdd

theorem findEntry_split {Op R : Type} [DecidableEq Op] (op : Op)
    (entry : cache_entry Op R) (l2 : List (cache_entry Op R))
    (hop : entry.operation = op) :
    ∀ l1, (∀ x ∈ l1, x.operation ≠ op) →
      findEntry op (l1 ++ entry :: l2) = some entry
  | [], _ => by simp [findEntry, hop]
  | x :: xs, hl1 => by
      have hx : x.operation ≠ op := hl1 x (List.mem_cons_self x xs)
      simp only [List.cons_append, findEntry, if_neg hx]
      exact findEntry_split op entry l2 hop xs
        (fun y hy => hl1 y (List.mem_cons_of_mem x hy))

theorem bumpHits_split {Op R : Type} [DecidableEq Op] (op : Op)
    (entry : cache_entry Op R) (l2 : List (cache_entry Op R))
    (hop : entry.operation = op) :
    ∀ l1, (∀ x ∈ l1, x.operation ≠ op) →
      bumpHits op (l1 ++ entry :: l2)
        = l1 ++ { entry with nb_hits := inc32 entry.nb_hits } :: l2
  | [], _ => by simp [bumpHits, hop]
  | x :: xs, hl1 => by
      have hx : x.operation ≠ op := hl1 x (List.mem_cons_self x xs)
      simp only [List.cons_append, bumpHits, if_neg hx, List.cons.injEq, true_and]
      exact bumpHits_split op entry l2 hop xs
        (fun y hy => hl1 y (List.mem_cons_of_mem x hy))

end sdd

/-- Claim C6: a lookup of a cacheable operation already present in the cache
returns the stored result without evaluating the operation (the conclusion
does not depend on evalFn), increments exactly the matched entry's nb_hits
and the current round's hits counter, and leaves everything else unchanged:
the other entries, the set of entries, the misses and filtered counters, the
earlier rounds and the maximum size. -/
theorem c6_cache_hit_frame {Sd Tp Op R : Type} [DecidableEq Op]
    (filter : Op → Bool) (evalFn : Op → Except (sdd.evaluation_error Sd Tp Op) R)
    (c : sdd.cache Op R) (op : Op) (entry : sdd.cache_entry Op R)
    (l1 l2 : List (sdd.cache_entry Op R)) (r : sdd.cache_round)
    (rs : List sdd.cache_round)
    (hf : filter op = true)
    (hent : c.entries = l1 ++ entry :: l2)
    (hop : entry.operation = op)
    (hl1 : ∀ x ∈ l1, x.operation ≠ op)
    (hr : c.rounds = r :: rs) :
    sdd.lookup filter evalFn c op
      = (.ok entry.result,
         { entries := l1 ++ { entry with nb_hits := sdd.inc32 entry.nb_hits } :: l2,
           rounds := { r with hits := sdd.inc64 r.hits } :: rs,
           max_size := c.max_size }) := by
  have hfind : sdd.findEntry op c.entries = some entry := by
    rw [hent]
    exact sdd.findEntry_split op entry l2 hop l1 hl1
  have hbump : sdd.bumpHits op c.entries
      = l1 ++ { entry with nb_hits := sdd.inc32 entry.nb_hits } :: l2 := by
    rw [hent]
    exact sdd.bumpHits_split op entry l2 hop l1 hl1
  have hft : ¬ filter op = false := by
    rw [hf]
    exact Bool.true_eq_false ▸ nofun
  simp only [sdd.lookup, if_neg hft, hfind, hbump, hr, sdd.incHits]

/-- Witness for claim C6: a hit on a one-entry cache storing operation 5 with
result 7; the evaluation function is chosen to return a different value,
showing it is not consulted. -/
theorem c6_witness :
    sdd.lookup (fun _ : Nat => true)
        (fun _ : Nat =>
          (Except.ok 99 : Except (sdd.evaluation_error Nat Nat Nat) Nat))
        ⟨[⟨5, 7, 0⟩], [⟨0, 0, 0⟩], 4⟩ 5
      = (.ok 7,
         { entries := [] ++ ⟨5, 7, sdd.inc32 0⟩ :: [],
           rounds := ⟨sdd.inc64 0, 0, 0⟩ :: [],
           max_size := 4 }) :=
  c6_cache_hit_frame (fun _ => true)
    (fun _ => (Except.ok 99 : Except (sdd.evaluation_error Nat Nat Nat) Nat))
    ⟨[⟨5, 7, 0⟩], [⟨0, 0, 0⟩], 4⟩ 5 ⟨5, 7, 0⟩ [] [] ⟨0, 0, 0⟩ []
    rfl rfl rfl (by intro x hx; cases hx) rfl

/-- Claim C4: when the iteration sequence x0 = x, x_{k+1} = h(x_k) eventually
stabilizes (equality decided by handle identity), the fixpoint evaluation
loop terminates and returns the first stable iterate y - the value of the
sequence at the first index m with x_{m+1} = x_m - and this y satisfies
h(y) = y.  Any fuel of at least m + 1 iterations (in particular the unfueled
C++ loop) yields that value. -/
theorem c4_fixpoint_eval_first_stable_iterate {α : Type} [DecidableEq α]
    (f : α → α) (x : α) (k : Nat) (hk : f^[k + 1] x = f^[k] x) :
    ∃ m, m ≤ k
      ∧ (∀ j, j < m → f^[j + 1] x ≠ f^[j] x)
      ∧ f^[m + 1] x = f^[m] x
      ∧ (∀ fuel, m + 1 ≤ fuel → sdd.fixpointIter f fuel x = some (f^[m] x))
      ∧ f (f^[m] x) = f^[m] x := by
  induction k generalizing x with
  | zero =>
      have hfx : f x = x := by simpa using hk
      refine ⟨0, Nat.le_refl 0, fun j hj => absurd hj (Nat.not_lt_zero j), by simpa using hfx,
        ?_, by simpa using hfx⟩
      intro fuel hfuel
      cases fuel with
      | zero => omega
      | succ n =>
          simp only [sdd.fixpointIter, hfx, if_pos]
          simp [hfx]
  | succ k ih =>
      by_cases hfx : f x = x
      · refine ⟨0, Nat.zero_le _, fun j hj => absurd hj (Nat.not_lt_zero j),
          by simpa using hfx, ?_, by simpa using hfx⟩
        intro fuel hfuel
        cases fuel with
        | zero => omega
        | succ n =>
            simp only [sdd.fixpointIter, hfx, if_pos]
            simp [hfx]
      · have hk2 : f^[k + 1] (f x) = f^[k] (f x) := by
          rw [← Function.iterate_succ_apply f k x, ← Function.iterate_succ_apply f (k + 1) x]
          exact hk
        obtain ⟨m, hmle, hne, hstab, hiter, hfix⟩ := ih (f x) hk2
        refine ⟨m + 1, by omega, ?_, ?_, ?_, ?_⟩
        · intro j hj
          cases j with
          | zero => simpa using hfx
          | succ j =>
              rw [Function.iterate_succ_apply f (j + 1) x, Function.iterate_succ_apply f j x]
              exact hne j (by omega)
        · rw [Function.iterate_succ_apply f (m + 1) x, Function.iterate_succ_apply f m x]
          exact hstab
        · intro fuel hfuel
          cases fuel with
          | zero => omega
          | succ n =>
              have hn : m + 1 ≤ n := by omega
              have hrec := hiter n hn
              simp only [sdd.fixpointIter, if_neg hfx]
              rw [hrec, Function.iterate_succ_apply f m x]
        · rw [Function.iterate_succ_apply f m x]
          exact hfix

/-- Witness for claim C4: the function min(n + 1, 2) starting at 0
stabilizes, the loop returns the first stable iterate and it is a fixed
point. -/
theorem c4_witness :
    ∃ m, m ≤ 2
      ∧ (∀ j, j < m → (fun n => min (n + 1) 2)^[j + 1] 0 ≠ (fun n => min (n + 1) 2)^[j] 0)
      ∧ (fun n => min (n + 1) 2)^[m + 1] 0 = (fun n => min (n + 1) 2)^[m] 0
      ∧ (∀ fuel, m + 1 ≤ fuel →
          sdd.fixpointIter (fun n => min (n + 1) 2) fuel 0
            = some ((fun n => min (n + 1) 2)^[m] 0))
      ∧ (fun n => min (n + 1) 2) ((fun n => min (n + 1) 2)^[m] 0)
          = (fun n => min (n + 1) 2)^[m] 0 :=
  c4_fixpoint_eval_first_stable_iterate (fun n => min (n + 1) 2) 0 2 (by decide)

namespace sdd

theorem sumEvalOps_all_ok {Sd Tp : Type}
    (evalOp : homomorphism → Sd → Except (evaluation_error Sd Tp homomorphism) Sd)
    (x : Sd) (res : homomorphism → Sd) :
    ∀ ops : List homomorphism, (∀ op ∈ ops, evalOp op x = .ok (res op)) →
      sumEvalOps evalOp ops x = .ok (ops.map res)
  | [], _ => rfl
  | op :: rest, hall => by
      have h1 : evalOp op x = .ok (res op) := hall op (List.mem_cons_self op rest)
      have h2 := sumEvalOps_all_ok evalOp x res rest
        (fun y hy => hall y (List.mem_cons_of_mem op hy))
      simp only [sumEvalOps, h1, h2, List.map_cons]

end sdd

/-- Claim C7: when every operand of a Sum homomorphism evaluates on the input
x successfully (their results listed in operand order) and the SDD union of
those results raises a Top t, the Sum evaluation raises the EvaluationError
built from x that wraps t; the list handed to the union is exactly the list
of per-operand evaluations on x, so each operand is evaluated on x before
the union is attempted. -/
theorem c7_sum_eval_wraps_top {Sd Tp : Type}
    (evalOp : sdd.homomorphism → Sd → Except (sdd.evaluation_error Sd Tp sdd.homomorphism) Sd)
    (ddSum : List Sd → Except Tp Sd) (ops : List sdd.homomorphism) (x : Sd)
    (res : sdd.homomorphism → Sd) (t : Tp)
    (hall : ∀ op ∈ ops, evalOp op x = .ok (res op))
    (ht : ddSum (ops.map res) = .error t) :
    sdd.sumEvalOps evalOp ops x = .ok (ops.map res)
  ∧ sdd.sumEval evalOp ddSum ops x
      = .error (sdd.add_top ⟨some x, none, []⟩ t)
  ∧ sdd.add_top (⟨some x, none, []⟩ : sdd.evaluation_error Sd Tp sdd.homomorphism) t
      = ⟨some x, some t, []⟩ := by
  have h1 := sdd.sumEvalOps_all_ok evalOp x res ops hall
  refine ⟨h1, ?_, rfl⟩
  simp only [sdd.sumEval, h1, ht]

/-- Witness for claim C7: a Sum with the sole operand Identity evaluated on
the SDD handle 5, where the union operation throws Top 3. -/
theorem c7_witness :
    sdd.sumEvalOps
        (fun _ x => Except.ok x :
          sdd.homomorphism → Nat → Except (sdd.evaluation_error Nat Nat sdd.homomorphism) Nat)
        [sdd.homomorphism.identity] (5 : Nat)
      = .ok ([sdd.homomorphism.identity].map (fun _ => (5 : Nat)))
  ∧ sdd.sumEval
        (fun _ x => Except.ok x :
          sdd.homomorphism → Nat → Except (sdd.evaluation_error Nat Nat sdd.homomorphism) Nat)
        (fun _ => (Except.error 3 : Except Nat Nat)) [sdd.homomorphism.identity] (5 : Nat)
      = .error (sdd.add_top ⟨some 5, none, []⟩ 3)
  ∧ sdd.add_top (⟨some 5, none, []⟩ : sdd.evaluation_error Nat Nat sdd.homomorphism) 3
      = ⟨some 5, some 3, []⟩ :=
  c7_sum_eval_wraps_top
    (fun _ x => Except.ok x :
      sdd.homomorphism → Nat → Except (sdd.evaluation_error Nat Nat sdd.homomorphism) Nat)
    (fun _ => (Except.error 3 : Except Nat Nat))
    [sdd.homomorphism.identity] 5 (fun _ => 5) 3
    (fun _ _ => rfl) rfl
